import Mathlib

/-!
Shallow embedding of the heap-dump reader and linker of `readdump.go` and of
the referrer-index builder and goroutine-status mapping of `hview/main.go`.

Conventions of the embedding:
* Go `uint64` values are Lean `ℕ`; where Go wrap-around matters the
  reduction `% 2^64` is written explicitly (`sub64`).
* Byte slices are `List ℕ` whose entries are byte values.
* `log.Fatal`, out-of-range slice indexing and similar aborts are modelled by
  `Except String`: a fatal path returns `Except.error`.
* Go pointers `*Object` inside an `Edge` are modelled by the index of the
  object in `Dump.objects`; pointer identity is index identity.
* Go maps built by `m[k] = v` loops are modelled by folding function
  updates in the same iteration order, so a later record overwrites an
  earlier one exactly as in the source.
-/

namespace Hprof

/-- A Field is a location in an object where there might be a pointer.
The `kind` is kept as the raw numeric tag exactly as decoded from the dump
(0 ptr, 1 string, 2 slice, 3 iface, 4 eface); `linkFields` dispatches on it
and ignores unknown values, as the Go `switch` does. -/
structure Field where
  kind : ℕ
  offset : ℕ
deriving DecidableEq, Repr

/-- Type descriptor (source struct `Type`; renamed because `Type` is a Lean
keyword). `name` holds the raw string bytes. -/
structure TypeD where
  name : List ℕ
  size : ℕ
  efaceptr : Bool
  fields : List Field
  addr : ℕ
deriving DecidableEq, Repr

/-- A heap object (source struct `Object`).  The `typ` pointer of the source
is resolved separately during linking and the `edges` slice is the linker
output, so neither is part of the raw record. -/
structure Object where
  kind : ℕ
  data : List ℕ
  addr : ℕ
  typaddr : ℕ
deriving DecidableEq, Repr

/-- A directed edge; `to` is the index of the destination object in
`Dump.objects` (the source stores a `*Object`). -/
structure Edge where
  toIdx : ℕ
  fromoffset : ℕ
  tooffset : ℕ
deriving DecidableEq, Repr

structure StackRoot where
  fromaddr : ℕ
  toaddr : ℕ
  frameaddr : ℕ
  depth : ℕ
deriving DecidableEq, Repr

structure DataRoot where
  fromaddr : ℕ
  toaddr : ℕ
deriving DecidableEq, Repr

structure OtherRoot where
  description : List ℕ
  toaddr : ℕ
deriving DecidableEq, Repr

/-- Object `obj` has a finalizer. -/
structure Finalizer where
  obj : ℕ
  fn : ℕ
  code : ℕ
  fint : ℕ
  ot : ℕ
deriving DecidableEq, Repr

structure Itab where
  addr : ℕ
  ptr : Bool
deriving DecidableEq, Repr

structure OSThread where
  addr : ℕ
  id : ℕ
  procid : ℕ
deriving DecidableEq, Repr

/-- Raw stack frame record; the linker-set `parent`/`goroutine` references
are not part of the record.  The raw frame-data string read by the source is
discarded there, so it is not a field here either. -/
structure StackFrame where
  name : List ℕ
  depth : ℕ
  addr : ℕ
  parentaddr : ℕ
  entry : ℕ
  pc : ℕ
deriving DecidableEq, Repr

structure GoRoutine where
  addr : ℕ
  tosaddr : ℕ
  goid : ℕ
  gopc : ℕ
  status : ℕ
  issystem : Bool
  isbackground : Bool
  waitsince : ℕ
  waitreason : List ℕ
  ctxtaddr : ℕ
  maddr : ℕ
deriving DecidableEq, Repr

/-- The root container (source struct `Dump`).  `order` is `none` until a
Params record has been seen (the Go zero value of a `binary.ByteOrder`
interface is `nil`); `some false` is little-endian, `some true` big-endian.
The source reads a MemStats record into a fresh `runtime.MemStats` that it
never stores on `d`, so `memstats` here stays `none`; the 281 varints of the
record body are consumed from the stream all the same. -/
structure Dump where
  order : Option Bool
  ptrSize : ℕ
  hChanSize : ℕ
  heapStart : ℕ
  heapEnd : ℕ
  thechar : ℕ
  experiment : List ℕ
  ncpu : ℕ
  types : List TypeD
  objects : List Object
  frames : List StackFrame
  goroutines : List GoRoutine
  stackroots : List StackRoot
  dataroots : List DataRoot
  otherroots : List OtherRoot
  finalizers : List Finalizer
  itabs : List Itab
  osthreads : List OSThread
  memstats : Option (List ℕ)

def emptyDump : Dump :=
  { order := none
    ptrSize := 0
    hChanSize := 0
    heapStart := 0
    heapEnd := 0
    thechar := 0
    experiment := []
    ncpu := 0
    types := []
    objects := []
    frames := []
    goroutines := []
    stackroots := []
    dataroots := []
    otherroots := []
    finalizers := []
    itabs := []
    osthreads := []
    memstats := none }

/-- Base-128 varint decoding; the loop of Go `binary.ReadUvarint`, including
its 10-byte/64-bit overflow guard.  `i` counts consumed bytes, `s` is the
current shift, `x` the accumulator. -/
def readUvarintAux : List ℕ → ℕ → ℕ → ℕ → Except String (ℕ × List ℕ)
  | [], _, _, _ => .error "EOF"
  | b :: rest, i, s, x =>
    if b < 0x80 then
      if i > 9 ∨ (i = 9 ∧ b > 1) then .error "overflow"
      else .ok (x ||| (b <<< s), rest)
    else readUvarintAux rest (i + 1) (s + 7) (x ||| ((b &&& 0x7f) <<< s))

/-- Source `readUint64`: one varint off the stream, fatal on error. -/
def readUint64 (bs : List ℕ) : Except String (ℕ × List ℕ) :=
  readUvarintAux bs 0 0 0

/-- Source `readNBytes`: exactly `n` raw bytes, fatal on EOF. -/
def readNBytes (bs : List ℕ) (n : ℕ) : Except String (List ℕ × List ℕ) :=
  if n ≤ bs.length then .ok (bs.take n, bs.drop n) else .error "EOF"

/-- Source `readString`: varint length then that many raw bytes. -/
def readString (bs : List ℕ) : Except String (List ℕ × List ℕ) := do
  let (n, bs) ← readUint64 bs
  readNBytes bs n

/-- Source `readBool`: a single byte, `0` is `false`. -/
def readBool (bs : List ℕ) : Except String (Bool × List ℕ) :=
  match bs with
  | [] => .error "EOF"
  | b :: rest => .ok (b != 0, rest)

/-- The inner loop of the `tagType` case: `nptr` pairs `(kind, offset)`. -/
def readTypeFields : ℕ → List ℕ → Except String (List Field × List ℕ)
  | 0, bs => .ok ([], bs)
  | n + 1, bs => do
    let (k, bs) ← readUint64 bs
    let (o, bs) ← readUint64 bs
    let (rest, bs) ← readTypeFields n bs
    .ok ({ kind := k, offset := o } :: rest, bs)

/-- Reads `n` consecutive varints (used for the fixed MemStats schedule:
24 named fields, the 256-entry pause histogram, and NumGC = 281 values). -/
def readVarints : ℕ → List ℕ → Except String (List ℕ × List ℕ)
  | 0, bs => .ok ([], bs)
  | n + 1, bs => do
    let (v, bs) ← readUint64 bs
    let (rest, bs) ← readVarints n bs
    .ok (v :: rest, bs)

/-- The record loop of source `rawRead`.  One fuel unit per record; every
record consumes at least the tag byte, so `fuel = length + 1` always
suffices.  Each case reads the body fields in source order and appends the
entity to the matching collection — except `tagOSThread` (13), whose case in
the source constructs the `OSThread` and never appends it to `d.osthreads`,
and `tagMemStats` (14), whose `runtime.MemStats` is likewise never stored on
`d`; both are modelled faithfully (fields consumed, nothing stored). -/
def readRecords : ℕ → List ℕ → Dump → Except String Dump
  | 0, _, _ => .error "reader fuel exhausted"
  | fuel + 1, bs, d => do
    let (kind, bs) ← readUint64 bs
    match kind with
    | 1 => do -- tagObject
      let (addr, bs) ← readUint64 bs
      let (typaddr, bs) ← readUint64 bs
      let (okind, bs) ← readUint64 bs
      let (size, bs) ← readUint64 bs
      let (data, bs) ← readNBytes bs size
      readRecords fuel bs
        { d with objects := d.objects ++
            [{ kind := okind, data := data, addr := addr, typaddr := typaddr }] }
    | 3 => .ok d -- tagEOF
    | 4 => do -- tagStackRoot
      let (fromaddr, bs) ← readUint64 bs
      let (toaddr, bs) ← readUint64 bs
      let (frameaddr, bs) ← readUint64 bs
      let (depth, bs) ← readUint64 bs
      let t : StackRoot := {
        fromaddr := fromaddr
        toaddr := toaddr
        frameaddr := frameaddr
        depth := depth }
      readRecords fuel bs { d with stackroots := d.stackroots ++ [t] }
    | 5 => do -- tagDataRoot
      let (fromaddr, bs) ← readUint64 bs
      let (toaddr, bs) ← readUint64 bs
      readRecords fuel bs
        { d with dataroots := d.dataroots ++
            [{ fromaddr := fromaddr, toaddr := toaddr }] }
    | 6 => do -- tagOtherRoot
      let (descr, bs) ← readString bs
      let (toaddr, bs) ← readUint64 bs
      readRecords fuel bs
        { d with otherroots := d.otherroots ++
            [{ description := descr, toaddr := toaddr }] }
    | 7 => do -- tagType
      let (addr, bs) ← readUint64 bs
      let (size, bs) ← readUint64 bs
      let (name, bs) ← readString bs
      let (efaceptr, bs) ← readBool bs
      let (nptr, bs) ← readUint64 bs
      let (fs, bs) ← readTypeFields nptr bs
      let t : TypeD := {
        name := name
        size := size
        efaceptr := efaceptr
        fields := fs
        addr := addr }
      readRecords fuel bs { d with types := d.types ++ [t] }
    | 8 => do -- tagGoRoutine
      let (addr, bs) ← readUint64 bs
      let (tosaddr, bs) ← readUint64 bs
      let (goid, bs) ← readUint64 bs
      let (gopc, bs) ← readUint64 bs
      let (status, bs) ← readUint64 bs
      let (issystem, bs) ← readBool bs
      let (isbackground, bs) ← readBool bs
      let (waitsince, bs) ← readUint64 bs
      let (waitreason, bs) ← readString bs
      let (ctxtaddr, bs) ← readUint64 bs
      let (maddr, bs) ← readUint64 bs
      let g : GoRoutine := {
        addr := addr
        tosaddr := tosaddr
        goid := goid
        gopc := gopc
        status := status
        issystem := issystem
        isbackground := isbackground
        waitsince := waitsince
        waitreason := waitreason
        ctxtaddr := ctxtaddr
        maddr := maddr }
      readRecords fuel bs { d with goroutines := d.goroutines ++ [g] }
    | 9 => do -- tagStackFrame
      let (addr, bs) ← readUint64 bs
      let (depth, bs) ← readUint64 bs
      let (parentaddr, bs) ← readUint64 bs
      let (entry, bs) ← readUint64 bs
      let (pc, bs) ← readUint64 bs
      let (name, bs) ← readString bs
      let (_, bs) ← readString bs -- raw frame data, read and discarded
      let t : StackFrame := {
        name := name
        depth := depth
        addr := addr
        parentaddr := parentaddr
        entry := entry
        pc := pc }
      readRecords fuel bs { d with frames := d.frames ++ [t] }
    | 10 => do -- tagParams
      let (flag, bs) ← readUint64 bs
      let order := if flag = 0 then some false else some true
      let (ptrSize, bs) ← readUint64 bs
      let (hChanSize, bs) ← readUint64 bs
      let (heapStart, bs) ← readUint64 bs
      let (heapEnd, bs) ← readUint64 bs
      let (thechar, bs) ← readUint64 bs
      let (experiment, bs) ← readString bs
      let (ncpu, bs) ← readUint64 bs
      let d2 : Dump := { d with
        order := order
        ptrSize := ptrSize
        hChanSize := hChanSize
        heapStart := heapStart
        heapEnd := heapEnd
        thechar := thechar % 256
        experiment := experiment
        ncpu := ncpu }
      readRecords fuel bs d2
    | 11 => do -- tagFinalizer
      let (obj, bs) ← readUint64 bs
      let (fn, bs) ← readUint64 bs
      let (code, bs) ← readUint64 bs
      let (fint, bs) ← readUint64 bs
      let (ot, bs) ← readUint64 bs
      readRecords fuel bs
        { d with finalizers := d.finalizers ++
            [{ obj := obj, fn := fn, code := code, fint := fint, ot := ot }] }
    | 12 => do -- tagItab
      let (addr, bs) ← readUint64 bs
      let (ptr, bs) ← readBool bs
      readRecords fuel bs
        { d with itabs := d.itabs ++ [{ addr := addr, ptr := ptr }] }
    | 13 => do -- tagOSThread: built but never appended in the source
      let (_addr, bs) ← readUint64 bs
      let (_id, bs) ← readUint64 bs
      let (_procid, bs) ← readUint64 bs
      readRecords fuel bs d
    | 14 => do -- tagMemStats: read into a fresh MemStats, never stored on d
      let (_vals, bs) ← readVarints 281 bs
      readRecords fuel bs d
    | _ => .error "unknown record kind"

/-- Byte values of the fixed header line `go1.3 heap dump`. -/
def headerBytes : List ℕ := "go1.3 heap dump".data.map Char.toNat

/-- Source `rawRead`: check the header line, then consume the record
stream.  The `bufio` line read is modelled by splitting at the first
newline byte. -/
def rawRead (bs : List ℕ) : Except String Dump :=
  let line := bs.takeWhile (fun b => b != 10)
  if line.length = bs.length then .error "EOF"
  else if line = headerBytes then
    readRecords (bs.length + 1) (bs.drop (line.length + 1)) emptyDump
  else .error "not a go1.3 heap dump file"

/-! ### The linker (source `readdump.go`, functions `linkPtr`, `linkFields`,
`link`)

Only the phases of `link` that create or modify object edge lists are
embedded: objects→types resolution, object→object field scanning, and the
finalizer pass.  The frame/goroutine/root phases of `link` set fields on
frames, goroutines and roots and never touch `Object.edges`, so they are
irrelevant to every claim about object edges. -/

/-- Go `uint64` subtraction `a - b` with wrap-around (defined for
`b ≤ 2^64`). -/
def sub64 (a b : ℕ) : ℕ := (a + 2 ^ 64 - b) % 2 ^ 64

/-- Fuel bound for the array/channel scan loop.  The loop variable is a
`uint64`, so a terminating run of the Go loop makes at most `2^64`
iterations; an input on which the Go loop would not terminate (element size
zero, or a wrapped loop variable re-entering the range) is mapped to an
error by fuel exhaustion. -/
def scanFuel : ℕ := 2 ^ 64

/-- Indexing a Go byte slice; out of range panics, modelled as an error. -/
def getByte (b : List ℕ) (i : ℕ) : Except String ℕ :=
  match b[i]? with
  | some v => .ok v
  | none => .error "index out of range"

/-- Source `readPtr`: dispatch on byte order and pointer size; any other
combination is fatal (`UnsupportedParameters`).  `bigend = some true` is
big-endian, `some false` little-endian, `none` the nil interface before a
Params record. -/
def readPtrRaw (bigend : Option Bool) (ptrSize : ℕ) (b : List ℕ) :
    Except String ℕ :=
  match bigend, ptrSize with
  | some false, 4 => do
    let b0 ← getByte b 0
    let b1 ← getByte b 1
    let b2 ← getByte b 2
    let b3 ← getByte b 3
    .ok (b0 + (b1 <<< 8) + (b2 <<< 16) + (b3 <<< 24))
  | some true, 4 => do
    let b0 ← getByte b 0
    let b1 ← getByte b 1
    let b2 ← getByte b 2
    let b3 ← getByte b 3
    .ok (b3 + (b2 <<< 8) + (b1 <<< 16) + (b0 <<< 24))
  | some false, 8 => do
    let b0 ← getByte b 0
    let b1 ← getByte b 1
    let b2 ← getByte b 2
    let b3 ← getByte b 3
    let b4 ← getByte b 4
    let b5 ← getByte b 5
    let b6 ← getByte b 6
    let b7 ← getByte b 7
    .ok (b0 + (b1 <<< 8) + (b2 <<< 16) + (b3 <<< 24) + (b4 <<< 32) +
      (b5 <<< 40) + (b6 <<< 48) + (b7 <<< 56))
  | some true, 8 => do
    let b0 ← getByte b 0
    let b1 ← getByte b 1
    let b2 ← getByte b 2
    let b3 ← getByte b 3
    let b4 ← getByte b 4
    let b5 ← getByte b 5
    let b6 ← getByte b 6
    let b7 ← getByte b 7
    .ok (b7 + (b6 <<< 8) + (b5 <<< 16) + (b4 <<< 24) + (b3 <<< 32) +
      (b2 <<< 40) + (b1 <<< 48) + (b0 <<< 56))
  | _, _ => .error "unsupported order or ptrSize"

/-- The idiom `readPtr(info.dump, x.data[off:])`: reslicing past the end of
the slice panics, otherwise decode a pointer at byte offset `off`. -/
def readPtrAt (d : Dump) (data : List ℕ) (off : ℕ) : Except String ℕ :=
  if off ≤ data.length then readPtrRaw d.order d.ptrSize (data.drop off)
  else .error "slice bound out of range"

/-- Insertion step of sorting the heap by object address (`sort.Sort(Heap)`
with `Less` comparing `addr`).  Objects are carried together with their
index in `Dump.objects`. -/
def insertByAddr (p : ℕ × Object) : List (ℕ × Object) → List (ℕ × Object)
  | [] => [p]
  | q :: qs =>
    if p.2.addr ≤ q.2.addr then p :: q :: qs else q :: insertByAddr p qs

/-- Sorting the heap by object address. -/
def sortByAddr : List (ℕ × Object) → List (ℕ × Object)
  | [] => []
  | p :: ps => insertByAddr p (sortByAddr ps)

/-- The binary-searchable map of objects (`info.heap`). -/
def mkHeap (objs : List Object) : List (ℕ × Object) :=
  sortByAddr objs.enum

/-- Source `Heap.find`: the least index (in address order) whose object end
lies beyond `p`, accepted when `p` is at or past that object's start.
`sort.Search` is a binary search over a predicate that is monotone on an
address-sorted heap; the least-index linear scan below computes the same
result. -/
def heapFindIdx (heap : List (ℕ × Object)) (p : ℕ) : Option (ℕ × Object) :=
  match heap.find? (fun q => decide (p < q.2.addr + q.2.data.length)) with
  | some q => if q.2.addr ≤ p then some q else none
  | none => none

/-- The maps of source struct `LinkInfo` that the embedded phases consult.
`frames` and `globals` are used only by the frame/goroutine/root phases and
are omitted. -/
structure LinkInfo where
  dump : Dump
  types : ℕ → Option TypeD
  itabs : ℕ → Option Itab
  heap : List (ℕ × Object)

/-- The loop `for _, x := range d.types { info.types[x.addr] = x }`:
a later duplicate type record overwrites an earlier one. -/
def typesByAddr (ts : List TypeD) : ℕ → Option TypeD :=
  ts.foldl (fun m t => fun a => if a = t.addr then some t else m a)
    (fun _ => none)

/-- The loop `for _, x := range d.itabs { info.itabs[x.addr] = x }`. -/
def itabsByAddr (ts : List Itab) : ℕ → Option Itab :=
  ts.foldl (fun m t => fun a => if a = t.addr then some t else m a)
    (fun _ => none)

def mkInfo (d : Dump) : LinkInfo :=
  { dump := d
    types := typesByAddr d.types
    itabs := itabsByAddr d.itabs
    heap := mkHeap d.objects }

/-- Source `linkPtr`: decode a pointer at `off`; if it lies inside some heap
object, produce the edge appended to `x.edges` (returned here as a one- or
zero-element delta). -/
def linkPtr (info : LinkInfo) (x : Object) (off : ℕ) :
    Except String (List Edge) := do
  let p ← readPtrAt info.dump x.data off
  match heapFindIdx info.heap p with
  | some q => .ok [{ toIdx := q.1, fromoffset := off, tooffset := p - q.2.addr }]
  | none => .ok []

/-- The `fieldKindEface` arm of the `switch f.kind` in source `linkFields`:
the type word at `off` goes through `linkPtr` first, then it is decoded
again and looked up; a missing type is fatal, and only when its `efaceptr`
flag is set is the data word at `off + ptrSize` linked as well. -/
def linkEface (info : LinkInfo) (x : Object) (off : ℕ) :
    Except String (List Edge) := do
  let es ← linkPtr info x off
  let tp ← readPtrAt info.dump x.data off
  if tp ≠ 0 then
    match info.types tp with
    | none => .error "cannot find eface type"
    | some t =>
      if t.efaceptr then do
        let es2 ← linkPtr info x (off + info.dump.ptrSize)
        .ok (es ++ es2)
      else .ok es
  else .ok es

/-- The `fieldKindIface` arm: a nonzero itab word must be in the itab map
(fatal otherwise); only when its `ptr` flag is set is the data word at
`off + ptrSize` linked. -/
def linkIface (info : LinkInfo) (x : Object) (off : ℕ) :
    Except String (List Edge) := do
  let tp ← readPtrAt info.dump x.data off
  if tp ≠ 0 then
    match info.itabs tp with
    | none => .error "cannot find iface tab"
    | some t =>
      if t.ptr then linkPtr info x (off + info.dump.ptrSize)
      else .ok []
  else .ok []

/-- One arm of the `switch f.kind` in source `linkFields`, at absolute
offset `off`.  Unknown kinds fall through the switch and do nothing. -/
def linkField (info : LinkInfo) (x : Object) (off : ℕ) (kind : ℕ) :
    Except String (List Edge) :=
  match kind with
  | 0 => linkPtr info x off
  | 1 => linkPtr info x off
  | 2 => linkPtr info x off
  | 4 => linkEface info x off
  | 3 => linkIface info x off
  | _ => .ok []

/-- Source `linkFields`: one pass over the field descriptors at pass base
`offset`, concatenating the edges in field order. -/
def linkFields (info : LinkInfo) (x : Object) :
    List Field → ℕ → Except String (List Edge)
  | [], _ => .ok []
  | f :: fs, offset => do
    let es ← linkField info x (offset + f.offset) f.kind
    let rest ← linkFields info x fs offset
    .ok (es ++ rest)

/-- The offsets visited by the loop
`for i := start; i <= bound; i += size`, uint64 semantics, fuel-bounded
(see `scanFuel`). -/
def passOffsets : ℕ → ℕ → ℕ → ℕ → List ℕ
  | 0, _, _, _ => []
  | fuel + 1, i, size, bound =>
    if i ≤ bound then i :: passOffsets fuel (i + size) size bound else []

/-- Run `linkFields` at each pass offset, concatenating the edges in pass
order (the loop body of the array/channel cases of `link`). -/
def passesLink (info : LinkInfo) (x : Object) (fs : List Field) :
    List ℕ → Except String (List Edge)
  | [] => .ok []
  | i :: rest => do
    let es ← linkFields info x fs i
    let more ← passesLink info x fs rest
    .ok (es ++ more)

/-- The `switch x.kind` of the object→object phase of `link`: one pass at 0
for a plain object, passes `0, size, 2·size, …` while `i ≤ len(data)-size`
(uint64 subtraction!) for an array, the same loop starting at `hChanSize`
for a channel; other kinds fall through the switch.  A typeless object was
already skipped (`continue`). -/
def scanObj (info : LinkInfo) (x : Object) : Option TypeD →
    Except String (List Edge)
  | none => .ok []
  | some t =>
    match x.kind with
    | 0 => linkFields info x t.fields 0
    | 1 => passesLink info x t.fields
        (passOffsets scanFuel 0 t.size (sub64 x.data.length t.size))
    | 2 => passesLink info x t.fields
        (passOffsets scanFuel info.dump.hChanSize t.size
          (sub64 x.data.length t.size))
    | _ => .ok []

/-- The objects→types phase of `link` for one object: a zero `typaddr`
yields a nil type, a nonzero one must be in the map. -/
def resolveType (info : LinkInfo) (x : Object) :
    Except String (Option TypeD) :=
  if x.typaddr = 0 then .ok none
  else
    match info.types x.typaddr with
    | none => .error "type is missing"
    | some t => .ok (some t)

/-- The inner loop of the finalizer pass for a finalizer whose object
resolved to index `xi`: for each of `fn`, `fint`, `ot` that resolves to a
containing object `y`, the edge `Edge{x, 0, addr - y.addr}` appended to
`x.edges` — note the destination is `x` itself while `tooffset` is measured
against `y`. -/
def finTargets (find : ℕ → Option (ℕ × Object)) (xi : ℕ) (f : Finalizer) :
    List Edge :=
  [f.fn, f.fint, f.ot].flatMap fun a =>
    match find a with
    | some y => [{ toIdx := xi, fromoffset := 0, tooffset := a - y.2.addr }]
    | none => []

/-- One finalizer of the pass: if `x := heap.find(f.obj)` is nil no target
appends anything; otherwise the target edges are appended to `x.edges`. -/
def finStep (find : ℕ → Option (ℕ × Object)) (em : ℕ → List Edge)
    (f : Finalizer) : ℕ → List Edge :=
  match find f.obj with
  | none => em
  | some x => fun j => if j = x.1 then em x.1 ++ finTargets find x.1 f else em j

/-- The finalizer pass of `link` (its final loop), threading the per-object
edge lists through each finalizer in record order. -/
def linkFinalizers (find : ℕ → Option (ℕ × Object)) (fs : List Finalizer)
    (em : ℕ → List Edge) : ℕ → List Edge :=
  fs.foldl (finStep find) em

/-- A `for _, x := range xs` loop whose body can abort (`log.Fatal`),
collecting one result per element. -/
def mapME (f : α → Except String β) : List α → Except String (List β)
  | [] => .ok []
  | a :: as => do
    let b ← f a
    let bs ← mapME f as
    .ok (b :: bs)

/-- The edge-producing phases of source `link`, in source order: resolve
every object's type (fatal if missing), scan every typed object's fields,
then run the finalizer pass.  The result maps the index of an object in
`d.objects` to its final `edges` list. -/
def linkObjects (d : Dump) : Except String (ℕ → List Edge) := do
  let typs ← mapME (resolveType (mkInfo d)) d.objects
  let scans ← mapME (fun p => scanObj (mkInfo d) p.1 p.2) (d.objects.zip typs)
  .ok (linkFinalizers (heapFindIdx (mkInfo d).heap) d.finalizers
    (fun i => (scans[i]?).getD []))

/-! ### The referrer index builder (source `hview/main.go`, `prepare`)

`d.Edges(x)` of the `read` package (not part of this repository's sources)
is abstracted as a function giving each object id its list of edge
destinations; `prepare` consults nothing else about an edge but `e.To`.
The dense slice `ref1` (sentinel `ObjId(-1)`) and the map `ref2` are
modelled as total functions; the ids fed to them are valid object ids
(`< n`), as produced by the `read` package. -/

/-- One edge `(x → dst)` of the referrer loop: first referrer goes to
`ref1`, any further referrer is appended to `ref2`. -/
def prepStep (st : (ℕ → ℤ) × (ℕ → List ℕ)) (x dst : ℕ) :
    (ℕ → ℤ) × (ℕ → List ℕ) :=
  if st.1 dst < 0 then
    (fun j => if j = dst then (x : ℤ) else st.1 j, st.2)
  else
    (st.1, fun j => if j = dst then st.2 dst ++ [x] else st.2 j)

/-- Source `prepare` (referrer part): `ref1` initialised to the sentinel
`-1` everywhere, then the double loop over object ids and their edges. -/
def prepare (n : ℕ) (edges : ℕ → List ℕ) : (ℕ → ℤ) × (ℕ → List ℕ) :=
  (List.range n).foldl
    (fun st x => (edges x).foldl (fun st2 dst => prepStep st2 x dst) st)
    (fun _ => (-1 : ℤ), fun _ => [])

/-! ### The goroutine state mapping (source `hview/main.go`,
`goListHandler`) -/

/-- The `switch g.Status` of `goListHandler`: status codes 0,1,3,5 map to
fixed state strings, 4 to the goroutine's wait reason; 2 ("running") and
any unknown code are fatal. -/
def goState (status : ℕ) (waitreason : String) : Except String String :=
  match status with
  | 0 => .ok "idle"
  | 1 => .ok "runnable"
  | 2 => .error "found running goroutine in heap dump"
  | 3 => .ok "syscall"
  | 4 => .ok waitreason
  | 5 => .ok "dead"
  | _ => .error "unknown goroutine status"

/-! ### Specification-side derived notions

These definitions are not translations of source functions; they name, for
the statements and proofs below, the schedules and edge sets that the
source functions above produce. -/

/-- The `fromoffset` values an edge emitted for a field of kind `kind` at
absolute offset `off` can carry: the pointer kinds emit at `off`, an eface
emits at `off` (type word) and possibly `off + ptrSize` (data word), an
iface only at `off + ptrSize`; unknown kinds emit nothing. -/
def emitOffsets (ps off kind : ℕ) : List ℕ :=
  match kind with
  | 0 => [off]
  | 1 => [off]
  | 2 => [off]
  | 3 => [off + ps]
  | 4 => [off, off + ps]
  | _ => []

/-- The byte offsets at which `linkField` decodes a word for a field of
kind `kind` at absolute offset `off` (an iface also reads its itab word at
`off`, although it never emits there). -/
def readOffsets (ps off kind : ℕ) : List ℕ :=
  match kind with
  | 0 => [off]
  | 1 => [off]
  | 2 => [off]
  | 3 => [off, off + ps]
  | 4 => [off, off + ps]
  | _ => []

/-- Least possible emitted offset of a field, relative to the pass base. -/
def loEmit (ps : ℕ) (f : Field) : ℕ :=
  f.offset + (if f.kind = 3 then ps else 0)

/-- Greatest possible emitted offset of a field, relative to the pass
base. -/
def hiEmit (ps : ℕ) (f : Field) : ℕ :=
  f.offset + (if f.kind = 3 ∨ f.kind = 4 then ps else 0)

/-- All offsets one `linkFields` pass at base `base` can emit at, in
emission order. -/
def fieldSched (ps base : ℕ) (fs : List Field) : List ℕ :=
  fs.flatMap fun f => emitOffsets ps (base + f.offset) f.kind

/-- All offsets one `linkFields` pass at base `base` reads a word at. -/
def readSched (ps base : ℕ) (fs : List Field) : List ℕ :=
  fs.flatMap fun f => readOffsets ps (base + f.offset) f.kind

/-- The finalizer edges the finalizer pass appends to the object at index
`i`: one edge per finalizer resolving to `i` and per resolving target. -/
def finEdgesFor (find : ℕ → Option (ℕ × Object)) (fs : List Finalizer)
    (i : ℕ) : List Edge :=
  fs.flatMap fun f =>
    match find f.obj with
    | none => []
    | some x => if x.1 = i then finTargets find x.1 f else []

/-- The referrer loop of `prepare` flattened to its sequence of
`(source, destination)` steps, in execution order. -/
def prepPairs (n : ℕ) (edges : ℕ → List ℕ) : List (ℕ × ℕ) :=
  (List.range n).flatMap fun x => (edges x).map fun dst => (x, dst)

/-- The sources of the steps targeting `d`, in execution order. -/
def hitsFor (d : ℕ) (ps : List (ℕ × ℕ)) : List ℕ :=
  (ps.filter fun p => decide (p.2 = d)).map fun p => p.1

/-! ### Basic lemmas -/

theorem ebind_ok {α β : Type} (a : α) (f : α → Except String β) :
    ((Except.ok a : Except String α) >>= f) = f a := rfl

theorem ebind_error {α β : Type} (e : String) (f : α → Except String β) :
    ((Except.error e : Except String α) >>= f) = Except.error e := rfl

theorem mem_insertByAddr {p q : ℕ × Object} {l : List (ℕ × Object)} :
    q ∈ insertByAddr p l ↔ q = p ∨ q ∈ l := by
  induction l with
  | nil => simp [insertByAddr]
  | cons r rs ih =>
    by_cases h : p.2.addr ≤ r.2.addr <;>
      simp [insertByAddr, h, ih] <;> tauto

theorem mem_sortByAddr {q : ℕ × Object} {l : List (ℕ × Object)} :
    q ∈ sortByAddr l ↔ q ∈ l := by
  induction l with
  | nil => simp [sortByAddr]
  | cons p ps ih => simp [sortByAddr, mem_insertByAddr, ih]

/-- Whatever `Heap.find` returns contains the probed address, and its
index-object pair comes from `d.objects`. -/
theorem heapFindIdx_sound {objs : List Object} {p j : ℕ} {q : Object}
    (h : heapFindIdx (mkHeap objs) p = some (j, q)) :
    objs[j]? = some q ∧ q.addr ≤ p ∧ p < q.addr + q.data.length := by
  unfold heapFindIdx at h
  cases hf : List.find? (fun r => decide (p < r.2.addr + r.2.data.length))
      (mkHeap objs) with
  | none => rw [hf] at h; cases h
  | some r =>
    rw [hf] at h
    simp only [] at h
    by_cases hle : r.2.addr ≤ p
    · rw [if_pos hle] at h
      have hrq : r = (j, q) := Option.some.inj h
      subst hrq
      have hpred := List.find?_some hf
      have hmem := List.mem_of_find?_eq_some hf
      unfold mkHeap at hmem
      rw [mem_sortByAddr] at hmem
      have hget : objs[j]? = some q := by
        have := List.mem_enum_iff_getElem?.mp hmem
        exact this
      refine ⟨hget, hle, ?_⟩
      simpa using hpred
    · rw [if_neg hle] at h; cases h

/-- Every edge `linkPtr` emits points at a real object of the dump, lands
inside its payload, and leaves from the probed offset. -/
theorem linkPtr_sound {d : Dump} {x : Object} {off : ℕ} {es : List Edge}
    (h : linkPtr (mkInfo d) x off = .ok es) :
    ∀ e ∈ es, e.fromoffset = off ∧
      ∃ o, d.objects[e.toIdx]? = some o ∧ e.tooffset < o.data.length := by
  unfold linkPtr at h
  cases hr : readPtrAt (mkInfo d).dump x.data off with
  | error s => rw [hr, ebind_error] at h; cases h
  | ok pv =>
    rw [hr, ebind_ok] at h
    cases hfind : heapFindIdx (mkInfo d).heap pv with
    | none =>
      rw [hfind] at h
      simp only [] at h
      have hes : es = [] := (Except.ok.inj h).symm
      subst hes
      simp
    | some r =>
      rw [hfind] at h
      simp only [] at h
      have hes : es = [{ toIdx := r.1, fromoffset := off, tooffset := pv - r.2.addr }] :=
        (Except.ok.inj h).symm
      subst hes
      intro e he
      have he1 : e = { toIdx := r.1, fromoffset := off, tooffset := pv - r.2.addr } := by
        simpa using he
      subst he1
      have hr2 : heapFindIdx (mkHeap d.objects) pv = some (r.1, r.2) := by
        simpa [mkInfo] using hfind
      obtain ⟨hget, hle, hlt⟩ := heapFindIdx_sound hr2
      refine ⟨rfl, r.2, hget, ?_⟩
      show pv - r.2.addr < r.2.data.length
      omega

/-- The destination bound of `linkPtr_sound`, without the offset part. -/
def edgeSound (d : Dump) (e : Edge) : Prop :=
  ∃ o, d.objects[e.toIdx]? = some o ∧ e.tooffset < o.data.length

theorem linkEface_sound {d : Dump} {x : Object} {off : ℕ}
    {es : List Edge} (h : linkEface (mkInfo d) x off = .ok es) :
    ∀ e ∈ es, edgeSound d e := by
  unfold linkEface at h
  cases h1 : linkPtr (mkInfo d) x off with
  | error s => rw [h1, ebind_error] at h; cases h
  | ok es1 =>
    rw [h1, ebind_ok] at h
    cases h2 : readPtrAt (mkInfo d).dump x.data off with
    | error s => rw [h2, ebind_error] at h; cases h
    | ok tp =>
      rw [h2, ebind_ok] at h
      by_cases htp : tp ≠ 0
      · rw [if_pos htp] at h
        cases h3 : (mkInfo d).types tp with
        | none => rw [h3] at h; cases h
        | some t =>
          rw [h3] at h
          simp only [] at h
          by_cases hep : t.efaceptr
          · rw [if_pos hep] at h
            cases h4 : linkPtr (mkInfo d) x (off + (mkInfo d).dump.ptrSize) with
            | error s => rw [h4, ebind_error] at h; cases h
            | ok es2 =>
              rw [h4, ebind_ok] at h
              have hes : es = es1 ++ es2 := (Except.ok.inj h).symm
              subst hes
              intro e he
              rcases List.mem_append.mp he with h5 | h5
              · exact (linkPtr_sound h1 e h5).2
              · exact (linkPtr_sound h4 e h5).2
          · rw [if_neg hep] at h
            have hes : es = es1 := (Except.ok.inj h).symm
            subst hes
            intro e he
            exact (linkPtr_sound h1 e he).2
      · rw [if_neg htp] at h
        have hes : es = es1 := (Except.ok.inj h).symm
        subst hes
        intro e he
        exact (linkPtr_sound h1 e he).2

theorem linkIface_sound {d : Dump} {x : Object} {off : ℕ}
    {es : List Edge} (h : linkIface (mkInfo d) x off = .ok es) :
    ∀ e ∈ es, edgeSound d e := by
  unfold linkIface at h
  cases h2 : readPtrAt (mkInfo d).dump x.data off with
  | error s => rw [h2, ebind_error] at h; cases h
  | ok tp =>
    rw [h2, ebind_ok] at h
    by_cases htp : tp ≠ 0
    · rw [if_pos htp] at h
      cases h3 : (mkInfo d).itabs tp with
      | none => rw [h3] at h; cases h
      | some t =>
        rw [h3] at h
        simp only [] at h
        by_cases hp : t.ptr
        · rw [if_pos hp] at h
          intro e he
          exact (linkPtr_sound h e he).2
        · rw [if_neg hp] at h
          have hes : es = [] := (Except.ok.inj h).symm
          subst hes
          simp [edgeSound]
    · rw [if_neg htp] at h
      have hes : es = [] := (Except.ok.inj h).symm
      subst hes
      simp [edgeSound]

theorem linkField_sound {d : Dump} {x : Object} {off kind : ℕ}
    {es : List Edge} (h : linkField (mkInfo d) x off kind = .ok es) :
    ∀ e ∈ es, edgeSound d e := by
  match kind with
  | 0 | 1 | 2 => exact fun e he => (linkPtr_sound h e he).2
  | 4 => exact linkEface_sound h
  | 3 => exact linkIface_sound h
  | (n + 5) =>
    have hes : es = [] := (Except.ok.inj h).symm
    subst hes
    simp [edgeSound]

theorem linkFields_sound {d : Dump} {x : Object} {fs : List Field}
    {base : ℕ} {es : List Edge}
    (h : linkFields (mkInfo d) x fs base = .ok es) :
    ∀ e ∈ es, edgeSound d e := by
  induction fs generalizing es with
  | nil =>
    unfold linkFields at h
    have hes : es = [] := (Except.ok.inj h).symm
    subst hes; simp
  | cons f fs ih =>
    unfold linkFields at h
    cases h1 : linkField (mkInfo d) x (base + f.offset) f.kind with
    | error s => rw [h1, ebind_error] at h; cases h
    | ok es1 =>
      rw [h1, ebind_ok] at h
      cases h2 : linkFields (mkInfo d) x fs base with
      | error s => rw [h2, ebind_error] at h; cases h
      | ok es2 =>
        rw [h2, ebind_ok] at h
        have hes : es = es1 ++ es2 := (Except.ok.inj h).symm
        subst hes
        intro e he
        rcases List.mem_append.mp he with h5 | h5
        · exact linkField_sound h1 e h5
        · exact ih h2 e h5

theorem passesLink_sound {d : Dump} {x : Object} {fs : List Field}
    {ps : List ℕ} {es : List Edge}
    (h : passesLink (mkInfo d) x fs ps = .ok es) :
    ∀ e ∈ es, edgeSound d e := by
  induction ps generalizing es with
  | nil =>
    unfold passesLink at h
    have hes : es = [] := (Except.ok.inj h).symm
    subst hes; simp
  | cons i rest ih =>
    unfold passesLink at h
    cases h1 : linkFields (mkInfo d) x fs i with
    | error s => rw [h1, ebind_error] at h; cases h
    | ok es1 =>
      rw [h1, ebind_ok] at h
      cases h2 : passesLink (mkInfo d) x fs rest with
      | error s => rw [h2, ebind_error] at h; cases h
      | ok es2 =>
        rw [h2, ebind_ok] at h
        have hes : es = es1 ++ es2 := (Except.ok.inj h).symm
        subst hes
        intro e he
        rcases List.mem_append.mp he with h5 | h5
        · exact linkFields_sound h1 e h5
        · exact ih h2 e h5

theorem scanObj_sound {d : Dump} {x : Object} {ot : Option TypeD}
    {es : List Edge} (h : scanObj (mkInfo d) x ot = .ok es) :
    ∀ e ∈ es, edgeSound d e := by
  match ot with
  | none =>
    unfold scanObj at h
    have hes : es = [] := (Except.ok.inj h).symm
    subst hes; simp
  | some t =>
    unfold scanObj at h
    match hk : x.kind with
    | 0 => rw [hk] at h; exact linkFields_sound h
    | 1 => rw [hk] at h; exact passesLink_sound h
    | 2 => rw [hk] at h; exact passesLink_sound h
    | (n + 3) =>
      rw [hk] at h
      have hes : es = [] := (Except.ok.inj h).symm
      subst hes; simp

theorem mapME_ok_get {α β : Type} {f : α → Except String β} {l : List α}
    {ys : List β} (h : mapME f l = .ok ys) :
    ∀ (i : ℕ) (y : β), ys[i]? = some y →
      ∃ a, l[i]? = some a ∧ f a = .ok y := by
  induction l generalizing ys with
  | nil =>
    unfold mapME at h
    have hys : ys = [] := (Except.ok.inj h).symm
    subst hys
    intro i y hy
    simp at hy
  | cons a as ih =>
    unfold mapME at h
    cases h1 : f a with
    | error s => rw [h1, ebind_error] at h; cases h
    | ok b =>
      rw [h1, ebind_ok] at h
      cases h2 : mapME f as with
      | error s => rw [h2, ebind_error] at h; cases h
      | ok bs =>
        rw [h2, ebind_ok] at h
        have hys : ys = b :: bs := (Except.ok.inj h).symm
        subst hys
        intro i y hy
        match i with
        | 0 =>
          have hb : b = y := by simpa using hy
          subst hb
          exact ⟨a, by simp, h1⟩
        | (i + 1) =>
          have hy2 : bs[i]? = some y := by simpa using hy
          obtain ⟨a2, ha2, hf2⟩ := ih h2 i y hy2
          refine ⟨a2, ?_, hf2⟩
          simpa using ha2

/-- The finalizer pass appends exactly `finEdgesFor` to each object's
edges. -/
theorem linkFinalizers_apply (find : ℕ → Option (ℕ × Object))
    (fs : List Finalizer) (em : ℕ → List Edge) (j : ℕ) :
    linkFinalizers find fs em j = em j ++ finEdgesFor find fs j := by
  induction fs generalizing em with
  | nil => simp [linkFinalizers, finEdgesFor]
  | cons f rest ih =>
    have hstep : linkFinalizers find (f :: rest) em =
        linkFinalizers find rest (finStep find em f) := rfl
    rw [hstep, ih]
    have hone : (finStep find em f) j = em j ++
        (match find f.obj with
         | none => []
         | some x => if x.1 = j then finTargets find x.1 f else []) := by
      unfold finStep
      cases hf : find f.obj with
      | none => simp
      | some x =>
        simp only []
        by_cases hj : j = x.1
        · subst hj
          rw [if_pos rfl, if_pos rfl]
        · rw [if_neg hj, if_neg (fun hx => hj hx.symm)]
          simp
    rw [hone]
    unfold finEdgesFor
    rw [List.flatMap_cons, List.append_assoc]

/-- Splitting a successful `linkObjects` run into its scan results and the
finalizer contribution. -/
theorem linkObjects_decomp {d : Dump} {em : ℕ → List Edge}
    (h : linkObjects d = .ok em) :
    ∃ typs scans,
      mapME (resolveType (mkInfo d)) d.objects = .ok typs ∧
      mapME (fun p => scanObj (mkInfo d) p.1 p.2) (d.objects.zip typs) =
        .ok scans ∧
      ∀ j, em j = (scans[j]?).getD [] ++
        finEdgesFor (heapFindIdx (mkInfo d).heap) d.finalizers j := by
  unfold linkObjects at h
  cases h1 : mapME (resolveType (mkInfo d)) d.objects with
  | error s => rw [h1, ebind_error] at h; cases h
  | ok typs =>
    rw [h1, ebind_ok] at h
    cases h2 : mapME (fun p => scanObj (mkInfo d) p.1 p.2)
        (d.objects.zip typs) with
    | error s => rw [h2, ebind_error] at h; cases h
    | ok scans =>
      rw [h2, ebind_ok] at h
      have hem : em = linkFinalizers (heapFindIdx (mkInfo d).heap)
          d.finalizers (fun i => (scans[i]?).getD []) :=
        (Except.ok.inj h).symm
      subst hem
      exact ⟨typs, scans, rfl, h2, fun j =>
        linkFinalizers_apply _ _ _ j⟩

/-! ### Claim C1 -/

/-- C1 fixture: object `c1x` at 256 (8 bytes) with a finalizer whose `fn`
target 520 lies inside object `c1y` at 512 (16 bytes); `fint` and `ot` are
0 and resolve to nothing. -/
def c1x : Object :=
  { kind := 0, data := [0, 0, 0, 0, 0, 0, 0, 0], addr := 256, typaddr := 0 }

def c1y : Object :=
  { kind := 0, data := List.replicate 16 0, addr := 512, typaddr := 0 }

def c1f : Finalizer := { obj := 256, fn := 520, code := 0, fint := 0, ot := 0 }

def c1dump : Dump :=
  { emptyDump with
    order := some false
    ptrSize := 8
    objects := [c1x, c1y]
    finalizers := [c1f] }

/-- Claim C1, counterexample.  The finalizer target 520 resolves to the
object at index 1 (`c1y`), so the claim requires the appended edge to have
destination 1; the linker instead appends `Edge{x, 0, 520 - y.addr}`, whose
destination is the finalized object itself (index 0). -/
theorem claim1_cex :
    ∃ em, linkObjects c1dump = .ok em ∧
      heapFindIdx (mkHeap c1dump.objects) c1f.obj = some (0, c1x) ∧
      heapFindIdx (mkHeap c1dump.objects) c1f.fn = some (1, c1y) ∧
      em 0 = [{ toIdx := 0, fromoffset := 0, tooffset := 8 }] ∧
      (0 : ℕ) ≠ 1 :=
  ⟨_, rfl, by decide, by decide, rfl, by decide⟩

/-- Claim C1 (amended): for every finalizer whose object resolves to the
heap object at index `xi` and every target `t ∈ {fn, fint, ot}` resolving
to a containing object `y`, linking appends an edge to the finalized
object whose destination is the finalized object itself (index `xi`, a
self-reference — not `y`), with `toOffset = t - y.addr` measured against
`y`; a target that does not resolve contributes no edge. -/
theorem claim1_amended {d : Dump} {em : ℕ → List Edge} {f : Finalizer}
    {t xi yi : ℕ} {x y : Object}
    (hlink : linkObjects d = .ok em)
    (hf : f ∈ d.finalizers)
    (hx : heapFindIdx (mkHeap d.objects) f.obj = some (xi, x))
    (ht : t ∈ [f.fn, f.fint, f.ot])
    (hy : heapFindIdx (mkHeap d.objects) t = some (yi, y)) :
    ({ toIdx := xi, fromoffset := 0, tooffset := t - y.addr } : Edge) ∈
      em xi := by
  obtain ⟨typs, scans, h1, h2, hem⟩ := linkObjects_decomp hlink
  rw [hem xi]
  apply List.mem_append_right
  have hheap : (mkInfo d).heap = mkHeap d.objects := rfl
  rw [hheap]
  simp only [finEdgesFor, List.mem_flatMap]
  refine ⟨f, hf, ?_⟩
  rw [hx]
  simp only [if_true]
  simp only [finTargets, List.mem_flatMap]
  refine ⟨t, ht, ?_⟩
  rw [hy]
  simp

/-- Claim C1 amended, witness: on the C1 fixture the amended theorem
produces the self-referencing edge of the finalizer. -/
theorem claim1_amended_witness :
    ∃ em, linkObjects c1dump = Except.ok em ∧
      ({ toIdx := 0, fromoffset := 0, tooffset := 8 } : Edge) ∈ em 0 := by
  obtain ⟨em, hem⟩ : ∃ em, linkObjects c1dump = Except.ok em := ⟨_, rfl⟩
  exact ⟨em, hem, @claim1_amended c1dump em c1f 520 0 1 c1x c1y hem
    (by decide) (by decide) (by decide) (by decide)⟩

/-! ### Claim C2 -/

/-- C2 fixture: like C1, but the finalizer target 524 lands at offset 12 of
`c2y`, while the finalized object `c2x` is only 8 bytes long. -/
def c2x : Object :=
  { kind := 0, data := [0, 0, 0, 0, 0, 0, 0, 0], addr := 256, typaddr := 0 }

def c2y : Object :=
  { kind := 0, data := List.replicate 16 0, addr := 512, typaddr := 0 }

def c2f : Finalizer := { obj := 256, fn := 524, code := 0, fint := 0, ot := 0 }

def c2dump : Dump :=
  { emptyDump with
    order := some false
    ptrSize := 8
    objects := [c2x, c2y]
    finalizers := [c2f] }

/-- Claim C2, counterexample.  The finalizer edge stored on object 0 has
`tooffset = 12`, but its destination (object 0 itself) has only 8 payload
bytes, violating `tooffset < len(e.to.data)`. -/
theorem claim2_cex :
    ∃ em, linkObjects c2dump = .ok em ∧
      em 0 = [{ toIdx := 0, fromoffset := 0, tooffset := 12 }] ∧
      c2dump.objects[0]? = some c2x ∧ ¬ (12 < c2x.data.length) :=
  ⟨_, rfl, rfl, by decide, by decide⟩

/-- Claim C2 (amended): after linking, every edge appended by the
pointer-scanning phase satisfies `tooffset < len(destination.data)` (with a
valid destination index); the finalizer pass appends, after those, exactly
the `finEdgesFor` edges, whose `tooffset` is measured against the object
containing the target rather than against the stored destination, and which
may therefore violate the bound. -/
theorem claim2_amended {d : Dump} {em : ℕ → List Edge}
    (hlink : linkObjects d = .ok em) (i : ℕ) :
    ∃ scanPart,
      em i = scanPart ++
        finEdgesFor (heapFindIdx (mkHeap d.objects)) d.finalizers i ∧
      ∀ e ∈ scanPart, edgeSound d e := by
  obtain ⟨typs, scans, h1, h2, hem⟩ := linkObjects_decomp hlink
  refine ⟨(scans[i]?).getD [], hem i, ?_⟩
  cases hsc : scans[i]? with
  | none => simp
  | some es =>
    simp only [Option.getD_some]
    obtain ⟨p, hp, hscan⟩ := mapME_ok_get h2 i es hsc
    exact scanObj_sound hscan

/-- Claim C2 amended, witness: applied to the C2 fixture at object 0; the
scan part is empty and the finalizer part is the violating edge. -/
theorem claim2_amended_witness :
    ∃ em, linkObjects c2dump = Except.ok em ∧
      ∃ scanPart,
        em 0 = scanPart ++
          finEdgesFor (heapFindIdx (mkHeap c2dump.objects))
            c2dump.finalizers 0 ∧
        ∀ e ∈ scanPart, edgeSound c2dump e := by
  obtain ⟨em, hem⟩ : ∃ em, linkObjects c2dump = Except.ok em := ⟨_, rfl⟩
  exact ⟨em, hem, claim2_amended hem 0⟩

/-! ### Lemmas about `prepare` -/

/-- The referrer loop as a fold over its flattened step sequence. -/
def prepList (ps : List (ℕ × ℕ)) (st : (ℕ → ℤ) × (ℕ → List ℕ)) :
    (ℕ → ℤ) × (ℕ → List ℕ) :=
  ps.foldl (fun s p => prepStep s p.1 p.2) st

theorem prepare_eq_prepList (n : ℕ) (edges : ℕ → List ℕ) :
    prepare n edges =
      prepList (prepPairs n edges) (fun _ => (-1 : ℤ), fun _ => []) := by
  unfold prepare prepPairs
  generalize ((fun _ => (-1 : ℤ), fun _ => []) :
    (ℕ → ℤ) × (ℕ → List ℕ)) = st
  induction List.range n generalizing st with
  | nil => rfl
  | cons a l ih =>
    rw [List.foldl_cons, List.flatMap_cons]
    unfold prepList
    rw [List.foldl_append]
    rw [ih]
    unfold prepList
    congr 1
    rw [List.foldl_map]

theorem hitsFor_cons (dd : ℕ) (p : ℕ × ℕ) (ps : List (ℕ × ℕ)) :
    hitsFor dd (p :: ps) =
      if p.2 = dd then p.1 :: hitsFor dd ps else hitsFor dd ps := by
  unfold hitsFor
  by_cases h : p.2 = dd
  · rw [if_pos h, List.filter_cons_of_pos (by simpa using h), List.map_cons]
  · rw [if_neg h, List.filter_cons_of_neg (by simpa using h)]

theorem prepStep_other {st : (ℕ → ℤ) × (ℕ → List ℕ)} {x dst dd : ℕ}
    (h : dst ≠ dd) :
    (prepStep st x dst).1 dd = st.1 dd ∧
    (prepStep st x dst).2 dd = st.2 dd := by
  unfold prepStep
  have hne : dd ≠ dst := fun hx => h hx.symm
  by_cases hc : st.1 dst < 0
  · rw [if_pos hc]
    exact ⟨by simp [hne], rfl⟩
  · rw [if_neg hc]
    exact ⟨rfl, by simp [hne]⟩

/-- Characterisation of the referrer loop: on each destination `dd`, the
first hit (if `ref1[dd]` is still negative) lands in `ref1` and every
further hit is appended to `ref2[dd]`, in hit order. -/
theorem prepList_char (ps : List (ℕ × ℕ)) :
    ∀ st dd,
      (0 ≤ st.1 dd →
        (prepList ps st).1 dd = st.1 dd ∧
        (prepList ps st).2 dd = st.2 dd ++ hitsFor dd ps) ∧
      (st.1 dd < 0 →
        (prepList ps st).1 dd =
          (match hitsFor dd ps with
           | [] => st.1 dd
           | h :: _ => (h : ℤ)) ∧
        (prepList ps st).2 dd = st.2 dd ++ (hitsFor dd ps).tail) := by
  induction ps with
  | nil =>
    intro st dd
    constructor
    · intro _; exact ⟨rfl, by simp [hitsFor, prepList]⟩
    · intro _; exact ⟨rfl, by simp [hitsFor, prepList]⟩
  | cons p ps ih =>
    intro st dd
    have hstep : prepList (p :: ps) st = prepList ps (prepStep st p.1 p.2) :=
      rfl
    by_cases hpd : p.2 = dd
    · rw [hstep, hitsFor_cons, if_pos hpd]
      subst hpd
      constructor
      · -- ref1 already set: the hit is appended to ref2
        intro hge
        have hnot : ¬ st.1 p.2 < 0 := by omega
        have hs1 : (prepStep st p.1 p.2).1 p.2 = st.1 p.2 := by
          unfold prepStep; rw [if_neg hnot]
        have hs2 : (prepStep st p.1 p.2).2 p.2 = st.2 p.2 ++ [p.1] := by
          unfold prepStep; rw [if_neg hnot]; simp
        have := (ih (prepStep st p.1 p.2) p.2).1 (by rw [hs1]; exact hge)
        rw [this.1, this.2, hs1, hs2, List.append_assoc]
        exact ⟨rfl, rfl⟩
      · -- ref1 still sentinel: the hit becomes ref1
        intro hlt
        have hs1 : (prepStep st p.1 p.2).1 p.2 = (p.1 : ℤ) := by
          unfold prepStep; rw [if_pos hlt]; simp
        have hs2 : (prepStep st p.1 p.2).2 p.2 = st.2 p.2 := by
          unfold prepStep; rw [if_pos hlt]
        have := (ih (prepStep st p.1 p.2) p.2).1
          (by rw [hs1]; exact Int.natCast_nonneg p.1)
        rw [this.1, this.2, hs1, hs2]
        exact ⟨rfl, rfl⟩
    · rw [hstep, hitsFor_cons, if_neg hpd]
      obtain ⟨ho1, ho2⟩ := @prepStep_other st p.1 p.2 dd hpd
      constructor
      · intro hge
        have := (ih (prepStep st p.1 p.2) dd).1 (by rw [ho1]; exact hge)
        rw [this.1, this.2, ho1, ho2]
        exact ⟨rfl, rfl⟩
      · intro hlt
        have := (ih (prepStep st p.1 p.2) dd).2 (by rw [ho1]; exact hlt)
        rw [this.1, this.2, ho1, ho2]
        exact ⟨rfl, rfl⟩

/-- The two components of `prepare`, described by the hit sequence. -/
theorem prepare_char (n : ℕ) (edges : ℕ → List ℕ) (dd : ℕ) :
    (prepare n edges).1 dd =
      (match hitsFor dd (prepPairs n edges) with
       | [] => (-1 : ℤ)
       | h :: _ => (h : ℤ)) ∧
    (prepare n edges).2 dd = (hitsFor dd (prepPairs n edges)).tail := by
  rw [prepare_eq_prepList]
  have := (prepList_char (prepPairs n edges)
    (fun _ => (-1 : ℤ), fun _ => []) dd).2 (by norm_num)
  exact ⟨this.1, by rw [this.2]; simp⟩

theorem mem_hitsFor {s dd : ℕ} {ps : List (ℕ × ℕ)} :
    s ∈ hitsFor dd ps ↔ (s, dd) ∈ ps := by
  unfold hitsFor
  rw [List.mem_map]
  constructor
  · rintro ⟨p, hp, rfl⟩
    obtain ⟨hmem, hdd⟩ := List.mem_filter.mp hp
    have hp2 : p.2 = dd := by simpa using hdd
    have hpe : p = (p.1, dd) := by
      cases p with
      | mk a b => cases hp2; rfl
    exact hpe ▸ hmem
  · intro hmem
    exact ⟨(s, dd), List.mem_filter.mpr ⟨hmem, by simp⟩, rfl⟩

theorem mem_prepPairs {s dd n : ℕ} {edges : ℕ → List ℕ} :
    (s, dd) ∈ prepPairs n edges ↔ s < n ∧ dd ∈ edges s := by
  unfold prepPairs
  rw [List.mem_flatMap]
  constructor
  · rintro ⟨x, hx, hmem⟩
    obtain ⟨e, he, hpair⟩ := List.mem_map.mp hmem
    obtain ⟨h1, h2⟩ := Prod.mk.injEq .. ▸ hpair
    cases h1; cases h2
    exact ⟨List.mem_range.mp hx, he⟩
  · rintro ⟨hs, he⟩
    exact ⟨s, List.mem_range.mpr hs, List.mem_map.mpr ⟨dd, he, rfl⟩⟩

/-! ### Claim C4 (stated before C3, whose amended form reuses nothing of
it; both are consequences of `prepare_char`) -/

/-- Claim C4: reverse-edge completeness.  For every edge `(s → dd)` of the
abstract object graph fed to `prepare`, the source `s` is recorded either
as `ref1[dd]` or in `ref2[dd]`; and a destination with at least one inbound
edge never keeps the sentinel `-1` in `ref1`. -/
theorem claim4_refs_complete {n s dd : ℕ} {edges : ℕ → List ℕ}
    (hs : s < n) (he : dd ∈ edges s) :
    ((prepare n edges).1 dd = (s : ℤ) ∨ s ∈ (prepare n edges).2 dd) ∧
    (prepare n edges).1 dd ≠ -1 := by
  obtain ⟨h1, h2⟩ := prepare_char n edges dd
  have hmem : s ∈ hitsFor dd (prepPairs n edges) :=
    mem_hitsFor.mpr (mem_prepPairs.mpr ⟨hs, he⟩)
  cases hhits : hitsFor dd (prepPairs n edges) with
  | nil => rw [hhits] at hmem; cases hmem
  | cons h tl =>
    rw [hhits] at hmem h2
    have h1a : (prepare n edges).1 dd = (h : ℤ) := by
      rw [hhits] at h1; exact h1
    constructor
    · rcases List.mem_cons.mp hmem with rfl | htl
      · left; rw [h1a]
      · right; rw [h2]; exact htl
    · rw [h1a]; omega

/-- Claim C4, witness: two objects, one edge `0 → 1`. -/
theorem claim4_refs_complete_witness :
    ((prepare 2 (fun x => if x = 0 then [1] else [])).1 1 = (0 : ℤ) ∨
      0 ∈ (prepare 2 (fun x => if x = 0 then [1] else [])).2 1) ∧
    (prepare 2 (fun x => if x = 0 then [1] else [])).1 1 ≠ -1 :=
  claim4_refs_complete (by decide) (by decide)

/-! ### Claim C3 -/

/-- C3 fixture: source 1 has three edges to destination 0. -/
def c3edges : ℕ → List ℕ := fun x => if x = 1 then [0, 0, 0] else []

/-- Claim C3, counterexample.  With a single source owning three edges to
object 0, `prepare` sets `ref1[0] = 1` and appends 1 twice to `ref2[0]`:
`ref1[0]` occurs in `ref2[0]`, and `ref2[0]` holds the same source twice. -/
theorem claim3_cex :
    (prepare 2 c3edges).1 0 = 1 ∧
    (prepare 2 c3edges).2 0 = [1, 1] ∧
    (1 : ℕ) ∈ (prepare 2 c3edges).2 0 ∧
    ¬ ((prepare 2 c3edges).2 0).Nodup := by
  refine ⟨?_, ?_, ?_, ?_⟩ <;> decide

theorem hitsFor_append (dd : ℕ) (ps qs : List (ℕ × ℕ)) :
    hitsFor dd (ps ++ qs) = hitsFor dd ps ++ hitsFor dd qs := by
  unfold hitsFor
  rw [List.filter_append, List.map_append]

theorem hitsFor_one_src (dd x : ℕ) (l : List ℕ) :
    hitsFor dd (l.map fun dst => (x, dst)) =
      (l.filter fun e => decide (e = dd)).map fun _ => x := by
  induction l with
  | nil => rfl
  | cons e l ih =>
    rw [List.map_cons, hitsFor_cons]
    by_cases he : e = dd
    · rw [if_pos he, List.filter_cons_of_pos (by simpa using he),
        List.map_cons, ih]
    · rw [if_neg he, List.filter_cons_of_neg (by simpa using he), ih]

theorem hitsFor_prepPairs (dd n : ℕ) (edges : ℕ → List ℕ) :
    hitsFor dd (prepPairs n edges) =
      (List.range n).flatMap fun x =>
        ((edges x).filter fun e => decide (e = dd)).map fun _ => x := by
  unfold prepPairs
  induction List.range n with
  | nil => rfl
  | cons a l ih =>
    rw [List.flatMap_cons, List.flatMap_cons, hitsFor_append,
      hitsFor_one_src, ih]

theorem nodup_of_length_le_one {l : List ℕ} (h : l.length ≤ 1) :
    l.Nodup := by
  match l with
  | [] => exact List.nodup_nil
  | [a] => simp
  | a :: b :: t => simp at h

/-- The hit sequence has no duplicate source when every source has at most
one edge to `dd`. -/
theorem hits_nodup {dd n : ℕ} {edges : ℕ → List ℕ}
    (hcount : ∀ x, ((edges x).filter fun e => decide (e = dd)).length ≤ 1) :
    (hitsFor dd (prepPairs n edges)).Nodup := by
  rw [hitsFor_prepPairs]
  rw [List.nodup_flatMap]
  constructor
  · intro x _
    apply nodup_of_length_le_one
    rw [List.length_map]
    exact hcount x
  · have hnd : (List.range n).Nodup := List.nodup_range n
    refine List.Pairwise.imp ?_ hnd
    intro a b hab
    intro y hya hyb
    obtain ⟨_, _, rfl⟩ := List.mem_map.mp hya
    obtain ⟨_, _, hy⟩ := List.mem_map.mp hyb
    exact hab hy.symm

/-- Claim C3 (amended): under the additional hypothesis that every source
object has at most one edge to `dd` (the claim fails without it: each edge
beyond the first appends its source to `ref2[dd]` again), `ref1[dd]` does
not occur in `ref2[dd]` and `ref2[dd]` has no duplicates. -/
theorem claim3_amended {n dd : ℕ} {edges : ℕ → List ℕ}
    (hcount : ∀ x, ((edges x).filter fun e => decide (e = dd)).length ≤ 1) :
    (∀ s ∈ (prepare n edges).2 dd, (s : ℤ) ≠ (prepare n edges).1 dd) ∧
    ((prepare n edges).2 dd).Nodup := by
  obtain ⟨h1, h2⟩ := prepare_char n edges dd
  have hnodup := @hits_nodup dd n edges hcount
  cases hhits : hitsFor dd (prepPairs n edges) with
  | nil =>
    rw [hhits] at h2
    rw [h2]
    exact ⟨by simp, List.nodup_nil⟩
  | cons h tl =>
    rw [hhits] at h2 hnodup
    have h1a : (prepare n edges).1 dd = (h : ℤ) := by
      rw [hhits] at h1; exact h1
    obtain ⟨hnotin, htl⟩ := List.nodup_cons.mp hnodup
    rw [h2, h1a]
    refine ⟨?_, htl⟩
    intro s hs hcast
    have : s = h := by exact_mod_cast hcast
    subst this
    exact hnotin hs

/-- C3 witness fixture: one edge `1 → 0`. -/
def c3w : ℕ → List ℕ := fun x => if x = 1 then [0] else []

/-- Claim C3 amended, witness. -/
theorem claim3_amended_witness :
    (∀ s ∈ (prepare 2 c3w).2 0, (s : ℤ) ≠ (prepare 2 c3w).1 0) ∧
    ((prepare 2 c3w).2 0).Nodup :=
  claim3_amended (fun x => by
    by_cases h : x = 1 <;> simp [c3w, h])

/-! ### Claims C5 and C10 -/

/-- C5 fixture: `c5x` has an eface field at offset 0.  Its type word is 520,
which is both the address of type `c5t2` (with `efaceptr = false`) and an
address inside the heap object `c5y` at 512. -/
def c5t1 : TypeD :=
  { name := [], size := 16, efaceptr := false,
    fields := [{ kind := 4, offset := 0 }], addr := 1280 }

def c5t2 : TypeD :=
  { name := [], size := 8, efaceptr := false, fields := [], addr := 520 }

def c5x : Object :=
  { kind := 0
    data := [8, 2, 0, 0, 0, 0, 0, 0, 0, 2, 0, 0, 0, 0, 0, 0]
    addr := 256
    typaddr := 1280 }

def c5y : Object :=
  { kind := 0, data := List.replicate 16 0, addr := 512, typaddr := 0 }

def c5dump : Dump :=
  { emptyDump with
    order := some false
    ptrSize := 8
    objects := [c5x, c5y]
    types := [c5t1, c5t2] }

/-- Claim C5, counterexample.  The eface field's type word resolves to a
Type with `efaceptr = false`, yet linking emits an edge for the field: the
type word itself (520) lies inside object 1 and `linkPtr` runs on it before
the flag is consulted. -/
theorem claim5_cex :
    ∃ em, linkObjects c5dump = .ok em ∧
      typesByAddr c5dump.types 520 = some c5t2 ∧
      c5t2.efaceptr = false ∧
      em 0 = [{ toIdx := 1, fromoffset := 0, tooffset := 8 }] :=
  ⟨_, rfl, by decide, by decide, rfl⟩

/-- Claim C5 (amended): when the eface type word decodes to a nonzero value
whose type lookup yields `efaceptr = false`, the field contributes exactly
the ordinary pointer-link of the type word itself — no data-word edge at
`off + ptrSize` is emitted, but the type word may still produce an edge if
it happens to lie inside a heap object. -/
theorem claim5_amended {info : LinkInfo} {x : Object} {off tp : ℕ}
    {t : TypeD}
    (hread : readPtrAt info.dump x.data off = .ok tp)
    (htp : tp ≠ 0)
    (hty : info.types tp = some t)
    (hef : t.efaceptr = false) :
    linkField info x off 4 = linkPtr info x off := by
  show linkEface info x off = linkPtr info x off
  unfold linkEface
  cases h1 : linkPtr info x off with
  | error s => rfl
  | ok es1 =>
    rw [ebind_ok, hread, ebind_ok, if_pos htp, hty]
    simp only [hef]
    rw [if_neg (by simp)]

/-- C5 witness fixture: same eface field, but the type word 520 lies inside
no heap object. -/
def c5wx : Object :=
  { kind := 0
    data := [8, 2, 0, 0, 0, 0, 0, 0, 0, 0, 0, 0, 0, 0, 0, 0]
    addr := 256
    typaddr := 1280 }

def c5wdump : Dump :=
  { emptyDump with
    order := some false
    ptrSize := 8
    objects := [c5wx]
    types := [c5t1, c5t2] }

/-- Claim C5 amended, witness: a scalar eface field whose type word does
not point into the heap emits nothing. -/
theorem claim5_amended_witness :
    linkField (mkInfo c5wdump) c5wx 0 4 = linkPtr (mkInfo c5wdump) c5wx 0 ∧
    linkField (mkInfo c5wdump) c5wx 0 4 = .ok [] :=
  ⟨@claim5_amended (mkInfo c5wdump) c5wx 0 520 c5t2 rfl (by decide)
    (by decide) (by decide), rfl⟩

/-- Claim C10: the eface arm first performs an ordinary pointer link on the
type word at `off` itself — whenever the decoded type word lies inside a
heap object, the resulting edge (with `fromoffset = off`) is the first edge
the field emits, with no hypothesis on (and hence independently of) the
looked-up type's `efaceptr` flag, which is consulted only afterwards. -/
theorem claim10_eface_typeword_link {info : LinkInfo} {x : Object}
    {off tp j : ℕ} {q : Object} {es : List Edge}
    (hread : readPtrAt info.dump x.data off = .ok tp)
    (hfind : heapFindIdx info.heap tp = some (j, q))
    (hok : linkField info x off 4 = .ok es) :
    es.head? =
      some { toIdx := j, fromoffset := off, tooffset := tp - q.addr } := by
  have hlp : linkPtr info x off =
      .ok [{ toIdx := j, fromoffset := off, tooffset := tp - q.addr }] := by
    unfold linkPtr
    rw [hread, ebind_ok, hfind]
  have hok2 : linkEface info x off = .ok es := hok
  unfold linkEface at hok2
  rw [hlp, ebind_ok, hread, ebind_ok] at hok2
  by_cases htp : tp ≠ 0
  · rw [if_pos htp] at hok2
    cases hty : info.types tp with
    | none => rw [hty] at hok2; cases hok2
    | some t =>
      rw [hty] at hok2
      simp only [] at hok2
      by_cases hef : t.efaceptr
      · rw [if_pos hef] at hok2
        cases h4 : linkPtr info x (off + info.dump.ptrSize) with
        | error s => rw [h4, ebind_error] at hok2; cases hok2
        | ok es2 =>
          rw [h4, ebind_ok] at hok2
          have hes : es = _ ++ es2 := (Except.ok.inj hok2).symm
          subst hes
          rfl
      · rw [if_neg hef] at hok2
        have hes : es = _ := (Except.ok.inj hok2).symm
        subst hes
        rfl
  · rw [if_neg htp] at hok2
    have hes : es = _ := (Except.ok.inj hok2).symm
    subst hes
    rfl

/-- Claim C10, witness: on the C5 fixture the type word 520 lies inside
object 1, and the first emitted edge is exactly the type-word edge. -/
theorem claim10_eface_typeword_link_witness :
    ∃ es, linkField (mkInfo c5dump) c5x 0 4 = .ok es ∧
      es.head? = some { toIdx := 1, fromoffset := 0, tooffset := 8 } := by
  obtain ⟨es, hes⟩ : ∃ es, linkField (mkInfo c5dump) c5x 0 4 = .ok es :=
    ⟨_, rfl⟩
  exact ⟨es, hes, @claim10_eface_typeword_link (mkInfo c5dump) c5x 0 520 1
    c5y es rfl (by decide) hes⟩

/-! ### Claim C6 -/

/-- C6 fixture: the header line, then an OSThread record (tag 13) with
`addr = 16`, `id = 7`, `procid = 42`, then EOF (tag 3). -/
def c6bytes : List ℕ := headerBytes ++ 10 :: [13, 16, 7, 42, 3]

/-- C6 truncated fixture: the OSThread record cut off before `procid`. -/
def c6trunc : List ℕ := headerBytes ++ 10 :: [13, 16, 7]

/-- Claim C6 (code bug): the reader consumes all three OSThread fields — a
stream truncated inside the record is an EOF error — but the parsed record
is never appended to `Dump.osthreads`, which stays empty, although the
claim (and the `osthreads` collection of the `Dump` struct itself) expects
the entity to be stored. -/
theorem claim6_osthread_dropped :
    Except.map (fun dd => dd.osthreads) (rawRead c6bytes) = .ok [] ∧
    rawRead c6trunc = .error "EOF" :=
  ⟨rfl, rfl⟩

/-! ### Claim C9 -/

/-- Claim C9: status codes 0, 1, 3, 4, 5 map to `idle`, `runnable`,
`syscall`, the goroutine's wait reason and `dead`; code 2 is fatal, and so
is every other code outside the set. -/
theorem claim9_status_map :
    (∀ w, goState 0 w = .ok "idle") ∧
    (∀ w, goState 1 w = .ok "runnable") ∧
    (∀ w, goState 3 w = .ok "syscall") ∧
    (∀ w, goState 4 w = .ok w) ∧
    (∀ w, goState 5 w = .ok "dead") ∧
    (∀ w, goState 2 w = .error "found running goroutine in heap dump") ∧
    (∀ s w, s ≠ 0 → s ≠ 1 → s ≠ 2 → s ≠ 3 → s ≠ 4 → s ≠ 5 →
      goState s w = .error "unknown goroutine status") := by
  refine ⟨fun w => rfl, fun w => rfl, fun w => rfl, fun w => rfl,
    fun w => rfl, fun w => rfl, ?_⟩
  intro s w h0 h1 h2 h3 h4 h5
  match s with
  | 0 => exact absurd rfl h0
  | 1 => exact absurd rfl h1
  | 2 => exact absurd rfl h2
  | 3 => exact absurd rfl h3
  | 4 => exact absurd rfl h4
  | 5 => exact absurd rfl h5
  | (n + 6) => rfl

/-- Claim C9, witness: the fatal branch at the unused status code 7. -/
theorem claim9_status_map_witness :
    goState 7 "w" = .error "unknown goroutine status" :=
  claim9_status_map.2.2.2.2.2.2 7 "w" (by decide) (by decide) (by decide)
    (by decide) (by decide) (by decide)

/-! ### Claim C7: edge ordering -/

theorem linkPtr_offsets {info : LinkInfo} {x : Object} {off : ℕ}
    {es : List Edge} (h : linkPtr info x off = .ok es) :
    List.Sublist (es.map Edge.fromoffset) [off] := by
  unfold linkPtr at h
  cases hr : readPtrAt info.dump x.data off with
  | error s => rw [hr, ebind_error] at h; cases h
  | ok pv =>
    rw [hr, ebind_ok] at h
    cases hfind : heapFindIdx info.heap pv with
    | none =>
      rw [hfind] at h
      simp only [] at h
      have hes : es = [] := (Except.ok.inj h).symm
      subst hes
      exact List.nil_sublist _
    | some r =>
      rw [hfind] at h
      simp only [] at h
      have hes : es =
          [{ toIdx := r.1, fromoffset := off, tooffset := pv - r.2.addr }] :=
        (Except.ok.inj h).symm
      subst hes
      simp

theorem sublist_pair_left (a b : ℕ) : List.Sublist [a] [a, b] :=
  List.Sublist.cons₂ a (List.nil_sublist [b])

theorem linkEface_offsets {info : LinkInfo} {x : Object} {off : ℕ}
    {es : List Edge} (h : linkEface info x off = .ok es) :
    List.Sublist (es.map Edge.fromoffset)
      [off, off + info.dump.ptrSize] := by
  unfold linkEface at h
  cases h1 : linkPtr info x off with
  | error s => rw [h1, ebind_error] at h; cases h
  | ok es1 =>
    rw [h1, ebind_ok] at h
    cases h2 : readPtrAt info.dump x.data off with
    | error s => rw [h2, ebind_error] at h; cases h
    | ok tp =>
      rw [h2, ebind_ok] at h
      by_cases htp : tp ≠ 0
      · rw [if_pos htp] at h
        cases h3 : info.types tp with
        | none => rw [h3] at h; cases h
        | some t =>
          rw [h3] at h
          simp only [] at h
          by_cases hep : t.efaceptr
          · rw [if_pos hep] at h
            cases h4 : linkPtr info x (off + info.dump.ptrSize) with
            | error s => rw [h4, ebind_error] at h; cases h
            | ok es2 =>
              rw [h4, ebind_ok] at h
              have hes : es = es1 ++ es2 := (Except.ok.inj h).symm
              subst hes
              rw [List.map_append]
              have : ([off, off + info.dump.ptrSize] : List ℕ) =
                  [off] ++ [off + info.dump.ptrSize] := rfl
              rw [this]
              exact List.Sublist.append (linkPtr_offsets h1)
                (linkPtr_offsets h4)
          · rw [if_neg hep] at h
            have hes : es = es1 := (Except.ok.inj h).symm
            subst hes
            exact (linkPtr_offsets h1).trans
              (sublist_pair_left off (off + info.dump.ptrSize))
      · rw [if_neg htp] at h
        have hes : es = es1 := (Except.ok.inj h).symm
        subst hes
        exact (linkPtr_offsets h1).trans
          (sublist_pair_left off (off + info.dump.ptrSize))

theorem linkIface_offsets {info : LinkInfo} {x : Object} {off : ℕ}
    {es : List Edge} (h : linkIface info x off = .ok es) :
    List.Sublist (es.map Edge.fromoffset) [off + info.dump.ptrSize] := by
  unfold linkIface at h
  cases h2 : readPtrAt info.dump x.data off with
  | error s => rw [h2, ebind_error] at h; cases h
  | ok tp =>
    rw [h2, ebind_ok] at h
    by_cases htp : tp ≠ 0
    · rw [if_pos htp] at h
      cases h3 : info.itabs tp with
      | none => rw [h3] at h; cases h
      | some t =>
        rw [h3] at h
        simp only [] at h
        by_cases hp : t.ptr
        · rw [if_pos hp] at h
          exact linkPtr_offsets h
        · rw [if_neg hp] at h
          have hes : es = [] := (Except.ok.inj h).symm
          subst hes
          exact List.nil_sublist _
    · rw [if_neg htp] at h
      have hes : es = [] := (Except.ok.inj h).symm
      subst hes
      exact List.nil_sublist _

theorem linkField_offsets {info : LinkInfo} {x : Object} {off kind : ℕ}
    {es : List Edge} (h : linkField info x off kind = .ok es) :
    List.Sublist (es.map Edge.fromoffset)
      (emitOffsets info.dump.ptrSize off kind) := by
  match kind with
  | 0 | 1 | 2 => exact linkPtr_offsets h
  | 3 => exact linkIface_offsets h
  | 4 => exact linkEface_offsets h
  | (n + 5) =>
    have hes : es = [] := (Except.ok.inj h).symm
    subst hes
    exact List.nil_sublist _

theorem linkFields_offsets {info : LinkInfo} {x : Object} {fs : List Field}
    {base : ℕ} {es : List Edge}
    (h : linkFields info x fs base = .ok es) :
    List.Sublist (es.map Edge.fromoffset)
      (fieldSched info.dump.ptrSize base fs) := by
  induction fs generalizing es with
  | nil =>
    unfold linkFields at h
    have hes : es = [] := (Except.ok.inj h).symm
    subst hes
    exact List.nil_sublist _
  | cons f fs ih =>
    unfold linkFields at h
    cases h1 : linkField info x (base + f.offset) f.kind with
    | error s => rw [h1, ebind_error] at h; cases h
    | ok es1 =>
      rw [h1, ebind_ok] at h
      cases h2 : linkFields info x fs base with
      | error s => rw [h2, ebind_error] at h; cases h
      | ok es2 =>
        rw [h2, ebind_ok] at h
        have hes : es = es1 ++ es2 := (Except.ok.inj h).symm
        subst hes
        rw [List.map_append]
        unfold fieldSched
        rw [List.flatMap_cons]
        exact List.Sublist.append (linkField_offsets h1) (ih h2)

theorem passesLink_offsets {info : LinkInfo} {x : Object} {fs : List Field}
    {ps : List ℕ} {es : List Edge}
    (h : passesLink info x fs ps = .ok es) :
    List.Sublist (es.map Edge.fromoffset)
      (ps.flatMap fun i => fieldSched info.dump.ptrSize i fs) := by
  induction ps generalizing es with
  | nil =>
    unfold passesLink at h
    have hes : es = [] := (Except.ok.inj h).symm
    subst hes
    exact List.nil_sublist _
  | cons i rest ih =>
    unfold passesLink at h
    cases h1 : linkFields info x fs i with
    | error s => rw [h1, ebind_error] at h; cases h
    | ok es1 =>
      rw [h1, ebind_ok] at h
      cases h2 : passesLink info x fs rest with
      | error s => rw [h2, ebind_error] at h; cases h
      | ok es2 =>
        rw [h2, ebind_ok] at h
        have hes : es = es1 ++ es2 := (Except.ok.inj h).symm
        subst hes
        rw [List.map_append, List.flatMap_cons]
        exact List.Sublist.append (linkFields_offsets h1) (ih h2)

theorem emitOffsets_bounds {ps base : ℕ} {f : Field} {o : ℕ}
    (h : o ∈ emitOffsets ps (base + f.offset) f.kind) :
    base + loEmit ps f ≤ o ∧ o ≤ base + hiEmit ps f := by
  obtain ⟨k, foff⟩ := f
  match k with
  | 0 => simp [emitOffsets, loEmit, hiEmit] at h ⊢; omega
  | 1 => simp [emitOffsets, loEmit, hiEmit] at h ⊢; omega
  | 2 => simp [emitOffsets, loEmit, hiEmit] at h ⊢; omega
  | 3 => simp [emitOffsets, loEmit, hiEmit] at h ⊢; omega
  | 4 =>
    simp [emitOffsets, loEmit, hiEmit] at h ⊢
    rcases h with rfl | rfl <;> omega
  | (n + 5) => simp [emitOffsets] at h

theorem emitOffsets_sorted (ps off k : ℕ) :
    List.Pairwise (· ≤ ·) (emitOffsets ps off k) := by
  match k with
  | 0 | 1 | 2 | 3 => simp [emitOffsets]
  | 4 => simp [emitOffsets]
  | (n + 5) => simp [emitOffsets]

theorem fieldSched_mem_bounds {ps base o : ℕ} {fs : List Field}
    (h : o ∈ fieldSched ps base fs) :
    ∃ f ∈ fs, base + loEmit ps f ≤ o ∧ o ≤ base + hiEmit ps f := by
  obtain ⟨f, hf, ho⟩ := List.mem_flatMap.mp h
  exact ⟨f, hf, emitOffsets_bounds ho⟩

theorem fieldSched_sorted {ps base : ℕ} {fs : List Field}
    (h : List.Pairwise (fun f g => hiEmit ps f ≤ loEmit ps g) fs) :
    List.Pairwise (· ≤ ·) (fieldSched ps base fs) := by
  induction h with
  | nil => simp [fieldSched]
  | @cons f l hf hrest ih =>
    unfold fieldSched
    rw [List.flatMap_cons, List.pairwise_append]
    refine ⟨emitOffsets_sorted ps (base + f.offset) f.kind, ih, ?_⟩
    intro a ha b hb
    obtain ⟨g, hg, h1, h2⟩ := fieldSched_mem_bounds hb
    have h3 := (emitOffsets_bounds ha).2
    have h4 := hf g hg
    omega

theorem passOffsets_mem_ge {fuel i size bound j : ℕ}
    (h : j ∈ passOffsets fuel i size bound) : i ≤ j := by
  induction fuel generalizing i with
  | zero => simp [passOffsets] at h
  | succ fuel ih =>
    unfold passOffsets at h
    by_cases hle : i ≤ bound
    · rw [if_pos hle] at h
      rcases List.mem_cons.mp h with rfl | htail
      · exact le_refl _
      · have := ih htail
        omega
    · rw [if_neg hle] at h; cases h

theorem passOffsets_pairwise (fuel i size bound : ℕ) :
    List.Pairwise (fun a b => a + size ≤ b)
      (passOffsets fuel i size bound) := by
  induction fuel generalizing i with
  | zero => simp [passOffsets]
  | succ fuel ih =>
    unfold passOffsets
    by_cases hle : i ≤ bound
    · rw [if_pos hle]
      exact List.Pairwise.cons (fun b hb => passOffsets_mem_ge hb)
        (ih (i + size))
    · rw [if_neg hle]; constructor

theorem passSched_sorted {ps size : ℕ} {fs : List Field} {P : List ℕ}
    (hP : List.Pairwise (fun a b => a + size ≤ b) P)
    (hfields : List.Pairwise (fun f g => hiEmit ps f ≤ loEmit ps g) fs)
    (hcross : ∀ f ∈ fs, ∀ g ∈ fs, hiEmit ps f ≤ size + loEmit ps g) :
    List.Pairwise (· ≤ ·) (P.flatMap fun i => fieldSched ps i fs) := by
  induction hP with
  | nil => simp
  | @cons i P hi hPrest ih =>
    rw [List.flatMap_cons, List.pairwise_append]
    refine ⟨fieldSched_sorted hfields, ih, ?_⟩
    intro a ha b hb
    obtain ⟨f, hfm, _, ha2⟩ := fieldSched_mem_bounds ha
    obtain ⟨i2, hi2, hb2⟩ := List.mem_flatMap.mp hb
    obtain ⟨g, hgm, hb3, _⟩ := fieldSched_mem_bounds hb2
    have h1 := hi i2 hi2
    have h2 := hcross f hfm g hgm
    omega

/-- Claim C7 (amended): within the object→object scanning phase, the edges
of a single object are nondecreasing in `fromoffset`, provided the type's
fields are listed in ascending non-overlapping order (the last word a field
can emit at precedes the next field's first emission offset) and — for
array/channel objects — a field's last emission offset stays within one
element stride of any field's first.  The finalizer pass appends its edges
(all with `fromoffset = 0`) after these, which can break the order. -/
theorem claim7_amended {info : LinkInfo} {x : Object} {t : TypeD}
    {es : List Edge}
    (hfields : List.Pairwise
      (fun f g => hiEmit info.dump.ptrSize f ≤ loEmit info.dump.ptrSize g)
      t.fields)
    (hcross : x.kind = 1 ∨ x.kind = 2 →
      ∀ f ∈ t.fields, ∀ g ∈ t.fields,
        hiEmit info.dump.ptrSize f ≤ t.size + loEmit info.dump.ptrSize g)
    (hscan : scanObj info x (some t) = .ok es) :
    List.Pairwise (· ≤ ·) (es.map Edge.fromoffset) := by
  unfold scanObj at hscan
  match hk : x.kind with
  | 0 =>
    rw [hk] at hscan
    have h2 : linkFields info x t.fields 0 = .ok es := hscan
    exact (fieldSched_sorted hfields).sublist (linkFields_offsets h2)
  | 1 =>
    rw [hk] at hscan
    have h2 : passesLink info x t.fields
        (passOffsets scanFuel 0 t.size (sub64 x.data.length t.size)) =
        .ok es := hscan
    exact (passSched_sorted (passOffsets_pairwise ..) hfields
      (hcross (Or.inl hk))).sublist (passesLink_offsets h2)
  | 2 =>
    rw [hk] at hscan
    have h2 : passesLink info x t.fields
        (passOffsets scanFuel info.dump.hChanSize t.size
          (sub64 x.data.length t.size)) = .ok es := hscan
    exact (passSched_sorted (passOffsets_pairwise ..) hfields
      (hcross (Or.inr hk))).sublist (passesLink_offsets h2)
  | (n + 3) =>
    rw [hk] at hscan
    have hes : es = [] := (Except.ok.inj hscan).symm
    subst hes
    simp

/-- C7 fixture: a plain object with one pointer field at offset 8 pointing
at itself, plus a finalizer on the same object whose `fn` also resolves to
it. -/
def c7t : TypeD :=
  { name := [], size := 16, efaceptr := false,
    fields := [{ kind := 0, offset := 8 }], addr := 1280 }

def c7x : Object :=
  { kind := 0
    data := [0, 0, 0, 0, 0, 0, 0, 0, 0, 1, 0, 0, 0, 0, 0, 0]
    addr := 256
    typaddr := 1280 }

def c7f : Finalizer := { obj := 256, fn := 256, code := 0, fint := 0, ot := 0 }

def c7dump : Dump :=
  { emptyDump with
    order := some false
    ptrSize := 8
    objects := [c7x]
    types := [c7t]
    finalizers := [c7f] }

/-- Claim C7, counterexample.  The field scan emits an edge with
`fromoffset = 8`; the finalizer pass then appends an edge with
`fromoffset = 0`, so the object's final edge list is not nondecreasing in
`fromoffset`. -/
theorem claim7_cex :
    ∃ em, linkObjects c7dump = .ok em ∧
      (em 0).map Edge.fromoffset = [8, 0] ∧
      ¬ List.Pairwise (fun a b : ℕ => a ≤ b) ((em 0).map Edge.fromoffset) :=
  ⟨_, rfl, rfl, by decide⟩

/-- C7 witness fixture: two self-pointing pointer fields at offsets 0
and 8, no finalizer. -/
def c7wt : TypeD :=
  { name := [], size := 16, efaceptr := false,
    fields := [{ kind := 0, offset := 0 }, { kind := 0, offset := 8 }],
    addr := 1280 }

def c7wx : Object :=
  { kind := 0
    data := [0, 1, 0, 0, 0, 0, 0, 0, 0, 1, 0, 0, 0, 0, 0, 0]
    addr := 256
    typaddr := 1280 }

def c7wdump : Dump :=
  { emptyDump with
    order := some false
    ptrSize := 8
    objects := [c7wx]
    types := [c7wt] }

/-- Claim C7 amended, witness. -/
theorem claim7_amended_witness :
    ∃ es, scanObj (mkInfo c7wdump) c7wx (some c7wt) = .ok es ∧
      List.Pairwise (fun a b : ℕ => a ≤ b) (es.map Edge.fromoffset) := by
  obtain ⟨es, hes⟩ :
      ∃ es, scanObj (mkInfo c7wdump) c7wx (some c7wt) = Except.ok es :=
    ⟨_, rfl⟩
  exact ⟨es, hes, claim7_amended (by decide) (by decide) hes⟩

/-! ### Claim C8: pass schedule of the array/channel loops -/

theorem sub64_eq {a b : ℕ} (hb : b ≤ a) (ha : a < 2 ^ 64) :
    sub64 a b = a - b := by
  unfold sub64
  have h1 : a + 2 ^ 64 - b = (a - b) + 2 ^ 64 := by omega
  rw [h1, Nat.add_mod_right]
  exact Nat.mod_eq_of_lt (by omega)

/-- Offsets visited by the loop, characterised when the fuel dominates the
iteration count. -/
theorem mem_passOffsets {size : ℕ} (hsz : 0 < size) :
    ∀ (fuel i bound j : ℕ), (bound - i) / size + 2 ≤ fuel →
      (j ∈ passOffsets fuel i size bound ↔
        i ≤ j ∧ size ∣ (j - i) ∧ j ≤ bound) := by
  intro fuel
  induction fuel with
  | zero =>
    intro i bound j h
    generalize (bound - i) / size = q at h
    exact absurd h (by omega)
  | succ fuel ih =>
    intro i bound j h
    unfold passOffsets
    by_cases hle : i ≤ bound
    · rw [if_pos hle, List.mem_cons]
      by_cases hnext : i + size ≤ bound
      · have hd : (bound - i) / size = (bound - i - size) / size + 1 := by
          have h1 : bound - i - size + size = bound - i := by omega
          conv_lhs => rw [← h1]
          rw [Nat.add_div_right _ hsz]
        have hfuel : (bound - (i + size)) / size + 2 ≤ fuel := by
          rw [← Nat.sub_sub]
          rw [hd] at h
          generalize (bound - i - size) / size = q at h ⊢
          omega
        rw [ih (i + size) bound j hfuel]
        constructor
        · rintro (rfl | ⟨h1, ⟨k, hk⟩, h3⟩)
          · exact ⟨le_refl j, ⟨0, by omega⟩, hle⟩
          · refine ⟨by omega, ⟨k + 1, ?_⟩, h3⟩
            rw [Nat.mul_succ]
            generalize hm : size * k = m at hk ⊢
            omega
        · rintro ⟨h1, ⟨k, hk⟩, h3⟩
          match k with
          | 0 =>
            rw [Nat.mul_zero] at hk
            left
            omega
          | k + 1 =>
            rw [Nat.mul_succ] at hk
            right
            refine ⟨?_, ⟨k, ?_⟩, h3⟩
            · generalize hm : size * k = m at hk
              omega
            · generalize hm : size * k = m at hk ⊢
              omega
      · have htail : passOffsets fuel (i + size) size bound = [] := by
          match fuel with
          | 0 =>
            generalize (bound - i) / size = q at h
            exact absurd h (by omega)
          | fuel2 + 1 =>
            unfold passOffsets
            rw [if_neg (by omega)]
        rw [htail]
        simp only [List.not_mem_nil, or_false]
        constructor
        · rintro rfl
          exact ⟨le_refl j, ⟨0, by omega⟩, hle⟩
        · rintro ⟨h1, ⟨k, hk⟩, h3⟩
          match k with
          | 0 =>
            rw [Nat.mul_zero] at hk
            omega
          | k + 1 =>
            rw [Nat.mul_succ] at hk
            generalize hm : size * k = m at hk
            omega
    · rw [if_neg hle]
      simp only [List.not_mem_nil, false_iff]
      rintro ⟨h1, h2, h3⟩
      omega

theorem readOffsets_ge {ps base o : ℕ} {f : Field}
    (h : o ∈ readOffsets ps (base + f.offset) f.kind) : base ≤ o := by
  obtain ⟨k, foff⟩ := f
  match k with
  | 0 => simp [readOffsets] at h; omega
  | 1 => simp [readOffsets] at h; omega
  | 2 => simp [readOffsets] at h; omega
  | 3 =>
    simp [readOffsets] at h
    rcases h with rfl | rfl <;> omega
  | 4 =>
    simp [readOffsets] at h
    rcases h with rfl | rfl <;> omega
  | (n + 5) => simp [readOffsets] at h

/-- Claim C8 (amended): for an array object (`0 < size ≤ len(payload)`,
the spec's typed-object invariant — without `size ≤ len` the uint64 bound
underflows, see the counterexample) the loop passes are exactly the
multiples of `size` with `i + size ≤ len`; a channel's passes start at
`hChanSize` and every pass offset — and every word offset the field
decoders read relative to a pass — is at least `hChanSize`.  The last two
conjuncts pin these schedules to the array and channel arms of the
object-scan dispatch. -/
theorem claim8_amended {len size hchan ps : ℕ}
    (hsz : 0 < size) (hle : size ≤ len) (hlen : len < 2 ^ 64) :
    (∀ j, j ∈ passOffsets scanFuel 0 size (sub64 len size) ↔
      size ∣ j ∧ j + size ≤ len) ∧
    (∀ j, j ∈ passOffsets scanFuel hchan size (sub64 len size) →
      hchan ≤ j) ∧
    (∀ (fs : List Field) (o : ℕ), o ∈ readSched ps hchan fs → hchan ≤ o) ∧
    (∀ (info : LinkInfo) (x : Object) (t : TypeD), x.kind = 1 →
      scanObj info x (some t) = passesLink info x t.fields
        (passOffsets scanFuel 0 t.size (sub64 x.data.length t.size))) ∧
    (∀ (info : LinkInfo) (x : Object) (t : TypeD), x.kind = 2 →
      scanObj info x (some t) = passesLink info x t.fields
        (passOffsets scanFuel info.dump.hChanSize t.size
          (sub64 x.data.length t.size))) := by
  have hsub : sub64 len size = len - size := sub64_eq hle hlen
  refine ⟨?_, ?_, ?_, ?_, ?_⟩
  · intro j
    rw [hsub]
    have hfuel : (len - size - 0) / size + 2 ≤ scanFuel := by
      have hq := Nat.div_le_self (len - size - 0) size
      unfold scanFuel
      generalize (len - size - 0) / size = q at hq ⊢
      omega
    rw [mem_passOffsets hsz scanFuel 0 (len - size) j hfuel]
    constructor
    · rintro ⟨_, hdvd, hb⟩
      rw [Nat.sub_zero] at hdvd
      exact ⟨hdvd, by omega⟩
    · rintro ⟨hdvd, hb⟩
      exact ⟨Nat.zero_le j, by rw [Nat.sub_zero]; exact hdvd, by omega⟩
  · intro j hj
    exact passOffsets_mem_ge hj
  · intro fs o ho
    obtain ⟨f, hf, hr⟩ := List.mem_flatMap.mp ho
    exact readOffsets_ge hr
  · intro info x t hk
    unfold scanObj
    rw [hk]
  · intro info x t hk
    unfold scanObj
    rw [hk]

/-- C8 fixture: a typed array object whose payload (4 bytes) is shorter
than its element size (8 bytes). -/
def c8t : TypeD :=
  { name := [], size := 8, efaceptr := false,
    fields := [{ kind := 0, offset := 0 }], addr := 1280 }

def c8x : Object :=
  { kind := 1, data := [0, 0, 0, 0], addr := 256, typaddr := 1280 }

def c8dump : Dump :=
  { emptyDump with
    order := some false
    ptrSize := 8
    objects := [c8x]
    types := [c8t] }

/-- Claim C8, counterexample.  For this array object no `i` satisfies
`i + size ≤ len(payload)`, so the claimed schedule is empty and linking
should touch nothing; instead the uint64 bound `len(payload) - size`
underflows, the loop starts a pass at offset 0 and the pointer read runs
off the end of the payload (a Go panic, an error here). -/
theorem claim8_cex :
    linkObjects c8dump = .error "index out of range" ∧
    c8x.kind = 1 ∧ ¬ (0 + c8t.size ≤ c8x.data.length) :=
  ⟨rfl, rfl, by decide⟩

/-- Claim C8 amended, witness: a 16-byte payload of 8-byte elements passes
exactly at 0 and 8. -/
theorem claim8_amended_witness :
    ((0 : ℕ) < 8 ∧ (8 : ℕ) ≤ 16 ∧ (16 : ℕ) < 2 ^ 64) ∧
    (8 ∈ passOffsets scanFuel 0 8 (sub64 16 8) ↔ 8 ∣ 8 ∧ 8 + 8 ≤ 16) :=
  ⟨⟨by decide, by decide, by decide⟩,
    (@claim8_amended 16 8 96 8 (by decide) (by decide) (by decide)).1 8⟩

end Hprof
